import Mathlib

/- Shallow embedding of the simulated-annealing timetable engine in
   src/main.py.  Strings are Lean String / List Char; Python ints are
   Int/Nat; Python dicts are insertion-ordered association lists; Python
   sets are lists queried by membership; every call of the random module
   reads a dedicated oracle field of an explicit oracle record, so each
   behaviour of the real random stream corresponds to some oracle value.
   A Python exception is modelled as Option.none. -/

/- Python s.split(" ", 1): cut at the first occurrence only.  Unpacking
   the result into two variables (line 44 of main.py) raises ValueError
   when the separator is absent, modelled by none. -/
def splitFirst (c : Char) : List Char → Option (List Char × List Char)
  | [] => none
  | x :: xs =>
      if x = c then some ([], xs)
      else (splitFirst c xs).map fun p => (x :: p.1, p.2)

/- Python s.split(sep): split at every occurrence, keeping empty pieces;
   the result is never empty. -/
def splitCh (c : Char) : List Char → List (List Char)
  | [] => [[]]
  | x :: xs =>
      let r := splitCh c xs
      if x = c then [] :: r
      else
        match r with
        | y :: ys => (x :: y) :: ys
        | [] => [[x]]

def isPySpace (c : Char) : Bool := c == ' ' || c == '\t' || c == '\n' || c == '\r'

def stripSpaces (l : List Char) : List Char :=
  ((l.dropWhile isPySpace).reverse.dropWhile isPySpace).reverse

def digitsToNat (l : List Char) : Nat :=
  l.foldl (fun a c => 10 * a + (c.toNat - 48)) 0

def pyNatDigits (l : List Char) : Option Nat :=
  if l ≠ [] ∧ l.all Char.isDigit then some (digitsToNat l) else none

/- Python int(str): optional surrounding whitespace, optional sign, ASCII
   digits.  (Underscore digit separators and non-ASCII digits also accepted
   by CPython are not modelled; no claim depends on them.) -/
def pyInt (l : List Char) : Option Int :=
  match stripSpaces l with
  | '+' :: rest => (pyNatDigits rest).map fun n => Int.ofNat n
  | '-' :: rest => (pyNatDigits rest).map fun n => -(Int.ofNat n)
  | rest => (pyNatDigits rest).map fun n => Int.ofNat n

structure PSlot where
  day : String
  start_minute : Int
deriving DecidableEq

/- Lines 45-47 of main.py: start_str = time_range.split("-")[0];
   hh, mm = map(int, start_str.split(":")); start_minutes = hh*60 + mm.
   Note split("-")[0] is the prefix before the first '-', or the whole
   string when no '-' occurs; unpacking requires exactly two ':' pieces. -/
def pyStartMinutes (time_range : List Char) : Option Int :=
  match splitCh ':' (time_range.takeWhile fun c => c != '-') with
  | [h, m] =>
      match pyInt h, pyInt m with
      | some hh, some mm => some (hh * 60 + mm)
      | _, _ => none
  | _ => none

/- parse_slot (main.py lines 39-49) without its cache: the pure parse of a
   slot label.  none models the ValueError escaping parse_slot. -/
def parse_slot_pure (slot : String) : Option PSlot :=
  match splitFirst ' ' slot.data with
  | none => none
  | some (day, time_range) => (pyStartMinutes time_range).map fun n => ⟨String.mk day, n⟩

theorem splitFirst_eq_none (c : Char) (l : List Char) (h : c ∉ l) : splitFirst c l = none := by
  induction l with
  | nil => rfl
  | cons x xs ih =>
      have hx : ¬ x = c := fun hxc => h (hxc ▸ List.mem_cons_self x xs)
      have hxs : c ∉ xs := fun hm => h (List.mem_cons_of_mem x hm)
      simp [splitFirst, hx, ih hxs]

theorem splitFirst_append (c : Char) (l r : List Char) (h : c ∉ l) :
    splitFirst c (l ++ c :: r) = some (l, r) := by
  induction l with
  | nil => simp [splitFirst]
  | cons x xs ih =>
      have hx : ¬ x = c := fun hxc => h (hxc ▸ List.mem_cons_self x xs)
      have hxs : c ∉ xs := fun hm => h (List.mem_cons_of_mem x hm)
      simp [splitFirst, hx, ih hxs]

theorem data_append (s t : String) : (s ++ t).data = s.data ++ t.data := by
  cases s; cases t; rfl

theorem mem_stripSpaces (x : Char) (l : List Char) (h : x ∈ stripSpaces l) : x ∈ l := by
  unfold stripSpaces at h
  rw [List.mem_reverse] at h
  have h1 := (List.dropWhile_sublist (l := (l.dropWhile isPySpace).reverse) isPySpace).subset h
  rw [List.mem_reverse] at h1
  exact (List.dropWhile_sublist isPySpace).subset h1

theorem splitCh_ne_nil (c : Char) (l : List Char) : splitCh c l ≠ [] := by
  cases l with
  | nil => simp [splitCh]
  | cons x xs =>
      simp only [splitCh]
      split
      · simp
      · split <;> simp

theorem mem_splitCh (c : Char) (l : List Char) : ∀ part ∈ splitCh c l, ∀ x ∈ part, x ∈ l := by
  induction l with
  | nil =>
      intro part hp x hx
      simp [splitCh] at hp
      subst hp
      cases hx
  | cons y ys ih =>
      intro part hp x hx
      simp only [splitCh] at hp
      by_cases hyc : y = c
      · rw [if_pos hyc] at hp
        rcases List.mem_cons.mp hp with rfl | hp'
        · cases hx
        · exact List.mem_cons_of_mem y (ih part hp' x hx)
      · rw [if_neg hyc] at hp
        rcases hr : splitCh c ys with _ | ⟨z, zs⟩
        · exact absurd hr (splitCh_ne_nil c ys)
        · rw [hr] at hp
          rcases List.mem_cons.mp hp with rfl | hp'
          · rcases List.mem_cons.mp hx with rfl | hx'
            · exact List.mem_cons_self x ys
            · have : z ∈ splitCh c ys := hr ▸ List.mem_cons_self z zs
              exact List.mem_cons_of_mem y (ih z this x hx')
          · have : part ∈ splitCh c ys := hr ▸ List.mem_cons_of_mem z hp'
            exact List.mem_cons_of_mem y (ih part this x hx)

theorem pyInt_nonneg (l : List Char) (n : Int) (hne : '-' ∉ l) (h : pyInt l = some n) :
    0 ≤ n := by
  unfold pyInt at h
  split at h
  · rcases Option.map_eq_some'.mp h with ⟨k, _, hk⟩
    exact hk ▸ Int.natCast_nonneg k
  · rename_i rest heq
    have : '-' ∈ stripSpaces l := heq ▸ List.mem_cons_self '-' rest
    exact absurd (mem_stripSpaces _ _ this) hne
  · rcases Option.map_eq_some'.mp h with ⟨k, _, hk⟩
    exact hk ▸ Int.natCast_nonneg k

theorem pyStartMinutes_nonneg (tr : List Char) (n : Int) (h : pyStartMinutes tr = some n) :
    0 ≤ n := by
  unfold pyStartMinutes at h
  split at h
  · rename_i hp mp heq
    have hdash : ∀ x ∈ tr.takeWhile (fun c => c != '-'), x ≠ '-' := by
      intro x hx
      have := List.mem_takeWhile_imp hx
      simpa using this
    have hhp : '-' ∉ hp := by
      intro hm
      have : hp ∈ splitCh ':' (tr.takeWhile fun c => c != '-') := by
        rw [heq]; exact List.mem_cons_self hp [mp]
      exact hdash '-' (mem_splitCh _ _ hp this '-' hm) rfl
    have hmp : '-' ∉ mp := by
      intro hm
      have : mp ∈ splitCh ':' (tr.takeWhile fun c => c != '-') := by
        rw [heq]; exact List.mem_cons_of_mem hp (List.mem_cons_self mp [])
      exact hdash '-' (mem_splitCh _ _ mp this '-' hm) rfl
    split at h
    · rename_i hh mm hph hpm
      have h1 := pyInt_nonneg _ _ hhp hph
      have h2 := pyInt_nonneg _ _ hmp hpm
      have : n = hh * 60 + mm := by
        injection h with h'
        omega
      omega
    · exact absurd h (by simp)
  · exact absurd h (by simp)

/-- C7: corrected.  The claim says every label not of the shape
"Day HH:MM-HH:MM" — including one with a missing "-" — fails to parse.  In
the code a missing "-" does NOT fail: split("-")[0] is the whole remainder,
so "Mon 09:00" parses (see counterexample).  What holds: for a label
day ++ " " ++ rest with no space in day, the parse is exactly the parse of
the pre-dash start time of rest (failing when that is not int:int), and a
label with no space at all always fails (via ValueError; the code has no
MalformedSlotError class). -/
theorem parse_slot_shape (day rest label : String)
    (hday : ' ' ∉ day.data) (hlab : ' ' ∉ label.data) :
    parse_slot_pure (day ++ " " ++ rest) =
      (pyStartMinutes rest.data).map (fun n => ⟨day, n⟩) ∧
    parse_slot_pure label = none := by
  constructor
  · have hd : (day ++ " " ++ rest).data = day.data ++ ' ' :: rest.data := by
      rw [data_append, data_append]
      simp
    rw [parse_slot_pure, hd, splitFirst_append _ _ _ hday]
  · rw [parse_slot_pure, splitFirst_eq_none _ _ hlab]

theorem parse_slot_shape_witness :
    (' ' ∉ "Tue".data) ∧ (' ' ∉ "BadSlot".data) ∧
    (parse_slot_pure ("Tue" ++ " " ++ "10:15-11:45") =
      (pyStartMinutes "10:15-11:45".data).map (fun n => ⟨"Tue", n⟩) ∧
     parse_slot_pure "BadSlot" = none) :=
  ⟨by decide, by decide, parse_slot_shape "Tue" "10:15-11:45" "BadSlot" (by decide) (by decide)⟩

theorem parse_slot_missing_dash_succeeds :
    parse_slot_pure "Mon 09:00" = some ⟨"Mon", 540⟩ := by decide

/-- C8: corrected.  The claim says every successful parse yields a
start_minute in [0, 1440).  The lower bound holds (the start string cannot
contain a sign, so hour and minute are non-negative), but the upper bound
fails: the code never range-checks, and "Mon 25:00-26:00" parses to 1500
(see counterexample).  Amended: every successful parse yields a
non-negative start_minute. -/
theorem parse_slot_start_minute_nonneg (label : String) (ps : PSlot)
    (h : parse_slot_pure label = some ps) : 0 ≤ ps.start_minute := by
  unfold parse_slot_pure at h
  split at h
  · exact absurd h (by simp)
  · rcases Option.map_eq_some'.mp h with ⟨n, hn, hps⟩
    have := pyStartMinutes_nonneg _ _ hn
    rw [← hps]
    exact this

theorem parse_slot_start_minute_nonneg_witness :
    parse_slot_pure "Wed 08:30-09:30" = some ⟨"Wed", 510⟩ ∧
    0 ≤ (PSlot.mk "Wed" 510).start_minute :=
  ⟨by decide, parse_slot_start_minute_nonneg "Wed 08:30-09:30" ⟨"Wed", 510⟩ (by decide)⟩

theorem parse_slot_start_minute_overflow :
    parse_slot_pure "Mon 25:00-26:00" = some ⟨"Mon", 1500⟩ ∧ ¬ (1500 : Int) < 1440 :=
  ⟨by decide, by decide⟩

abbrev Assignment := String × String × String

abbrev Timetable := List Assignment

abbrev Cache := List (String × PSlot)

def cacheLookup (cache : Cache) (s : String) : Option PSlot :=
  (cache.find? fun p => p.1 == s).map fun p => p.2

/- parse_slot with its _slot_parsed cache (main.py lines 39-49): a hit
   returns the cached pair, a successful miss appends the parsed pair to
   the cache, a failed parse writes nothing. -/
def parse_slot (cache : Cache) (slot : String) : Option PSlot × Cache :=
  match cacheLookup cache slot with
  | some v => (some v, cache)
  | none =>
      match parse_slot_pure slot with
      | some v => (some v, cache ++ [(slot, v)])
      | none => (none, cache)

/- Every cache entry the program ever writes equals the pure parse of its
   key (parse_slot only stores its own result; refresh_caches only clears
   and re-primes through parse_slot). -/
def CacheValid (cache : Cache) : Prop := ∀ p ∈ cache, parse_slot_pure p.1 = some p.2

/- Python dict lookup over an insertion-ordered association list. -/
def dictFind? {α : Type} (d : List (String × α)) (k : String) : Option α :=
  (d.find? fun p => p.1 == k).map fun p => p.2

def dictGet {α : Type} (d : List (String × α)) (k : String) (dflt : α) : α :=
  (dictFind? d k).getD dflt

structure Weights where
  teacher_slot_conflict : Nat
  room_slot_conflict : Nat
  not_preferred : Nat
  back_to_back : Nat
  gap : Nat
  too_many_sessions_day : Nat
  missing_teacher : Nat
  malformed_slot : Nat
deriving DecidableEq

/- The WEIGHTS table of main.py lines 25-34. -/
def WEIGHTS : Weights := ⟨20000, 20000, 2, 1, 1, 10, 20000, 20000⟩

structure EvalAcc where
  penalty : Nat
  used_faculty : List (String × String)
  used_rooms : List (String × String)
  sched : List (String × List (String × List Int))
  cache : Cache
deriving DecidableEq

/- faculty_schedule.setdefault(teacher, {}).setdefault(day, []).append(m):
   insertion-ordered nested dict update, appending m at the bucket end. -/
def bucketAdd (days : List (String × List Int)) (day : String) (m : Int) :
    List (String × List Int) :=
  match days with
  | [] => [(day, [m])]
  | (d, l) :: rest => if d = day then (d, l ++ [m]) :: rest else (d, l) :: bucketAdd rest day m

def schedAdd (sched : List (String × List (String × List Int))) (teacher day : String)
    (m : Int) : List (String × List (String × List Int)) :=
  match sched with
  | [] => [(teacher, [(day, [m])])]
  | (t, ds) :: rest =>
      if t = teacher then (t, bucketAdd ds day m) :: rest
      else (t, ds) :: schedAdd rest teacher day m

/- main.py lines 89-104: the teacher-slot conflict check, the room-slot
   conflict check and the preference check, acting on the penalty counter
   and the two seen-sets. -/
def hard_checks (pref : List (String × List String)) (teacher slot room : String)
    (p : Nat) (uf ur : List (String × String)) :
    Nat × List (String × String) × List (String × String) :=
  let p1 := if (teacher, slot) ∈ uf then p + WEIGHTS.teacher_slot_conflict else p
  let uf1 := if (teacher, slot) ∈ uf then uf else (teacher, slot) :: uf
  let p2 := if (room, slot) ∈ ur then p1 + WEIGHTS.room_slot_conflict else p1
  let ur2 := if (room, slot) ∈ ur then ur else (room, slot) :: ur
  let p3 :=
    if dictGet pref teacher [] ≠ [] ∧ slot ∉ dictGet pref teacher [] then
      p2 + WEIGHTS.not_preferred
    else p2
  (p3, uf1, ur2)

/- cost_function per-assignment body (main.py lines 83-114).  A course
   whose cached teacher is empty only pays missing_teacher and skips the
   rest; a malformed slot pays malformed_slot and is not recorded in the
   teacher-day schedule. -/
def cost_step (ct : List (String × String)) (pref : List (String × List String))
    (acc : EvalAcc) (a : Assignment) : EvalAcc :=
  if dictGet ct a.1 "" = "" then { acc with penalty := acc.penalty + WEIGHTS.missing_teacher }
  else
    let teacher := dictGet ct a.1 ""
    let hc := hard_checks pref teacher a.2.1 a.2.2 acc.penalty acc.used_faculty acc.used_rooms
    match (parse_slot acc.cache a.2.1).1 with
    | some ps =>
        ⟨hc.1, hc.2.1, hc.2.2, schedAdd acc.sched teacher ps.day ps.start_minute,
         (parse_slot acc.cache a.2.1).2⟩
    | none =>
        ⟨hc.1 + WEIGHTS.malformed_slot, hc.2.1, hc.2.2, acc.sched,
         (parse_slot acc.cache a.2.1).2⟩

def sortStarts (l : List Int) : List Int := l.insertionSort (· ≤ ·)

/- main.py lines 124-129: the loop over consecutive pairs of the sorted
   start-minute bucket. -/
def pairPass : List Int → Nat
  | [] => 0
  | [_] => 0
  | a :: b :: rest =>
      (if 0 < b - a ∧ b - a ≤ 60 then WEIGHTS.back_to_back
       else if 60 < b - a then WEIGHTS.gap else 0) +
      pairPass (b :: rest)

/- main.py lines 119-129: one (teacher, day) bucket of the post-pass. -/
def bucketPenalty (starts : List Int) : Nat :=
  (if 5 ≤ (sortStarts starts).length then
     WEIGHTS.too_many_sessions_day * ((sortStarts starts).length - 4)
   else 0) +
  pairPass (sortStarts starts)

/- main.py lines 117-129: the day-level post-pass over the schedule. -/
def day_pass (sched : List (String × List (String × List Int))) : Nat :=
  (sched.map fun td => (td.2.map fun ds => bucketPenalty ds.2).sum).sum

def initAcc (cache : Cache) : EvalAcc := ⟨0, [], [], [], cache⟩

/- cost_function (main.py lines 68-130), parametrised by the module state
   it reads: the _course_teacher_cache dict (ct), preferred_slots (pref)
   and the _slot_parsed cache; WEIGHTS is the fixed table above.  Returns
   the penalty together with the final slot cache. -/
def cost_function (ct : List (String × String)) (pref : List (String × List String))
    (cache : Cache) (timetable : Timetable) : Nat × Cache :=
  let acc := timetable.foldl (cost_step ct pref) (initAcc cache)
  (acc.penalty + day_pass acc.sched, acc.cache)

def facKey (ct : List (String × String)) (a : Assignment) : String × String :=
  (dictGet ct a.1 "", a.2.1)

def roomKey (a : Assignment) : String × String := (a.2.2, a.2.1)

/- Spec-side formulation (section 4.2 of the spec) of the per-pair penalty
   of the post-pass, for comparison with the code's loop. -/
def pairPenaltySpec (d : Int) : Nat :=
  if 0 < d ∧ d ≤ 60 then WEIGHTS.back_to_back
  else if 60 < d then WEIGHTS.gap else 0

/- Spec-side formulation of one (teacher, day) bucket: the n >= 5 surcharge
   plus the sum of pairPenaltySpec over consecutive sorted pairs. -/
def bucketPenaltySpec (starts : List Int) : Nat :=
  (if 5 ≤ (sortStarts starts).length then
     WEIGHTS.too_many_sessions_day * ((sortStarts starts).length - 4)
   else 0) +
  (((sortStarts starts).zip (sortStarts starts).tail).map
    fun p => pairPenaltySpec (p.2 - p.1)).sum

theorem pairPass_eq (l : List Int) :
    pairPass l = ((l.zip l.tail).map fun p => pairPenaltySpec (p.2 - p.1)).sum := by
  induction l with
  | nil => rfl
  | cons a t ih =>
      cases t with
      | nil => rfl
      | cons b rest =>
          simp only [pairPass, List.tail_cons, List.zip_cons_cons, List.map_cons, List.sum_cons]
          rw [ih]
          rfl

theorem bucketPenalty_eq (starts : List Int) : bucketPenalty starts = bucketPenaltySpec starts := by
  unfold bucketPenalty bucketPenaltySpec
  rw [pairPass_eq]

/-- C6: confirmed.  The evaluator decomposes as the per-assignment pass
plus, for every (teacher, day) bucket of recorded start-minutes, the
spec-side bucket formula: a bucket of sorted length n with n >= 5 adds
too_many_sessions_day * (n - 4), each consecutive sorted pair at distance
d adds back_to_back when 0 < d <= 60 and gap when 60 < d, and a pair at
distance exactly 0 adds nothing. -/
theorem cost_function_day_pass_rule (ct : List (String × String))
    (pref : List (String × List String)) (cache : Cache) (tt : Timetable) :
    (cost_function ct pref cache tt).1 =
      (tt.foldl (cost_step ct pref) (initAcc cache)).penalty +
      ((tt.foldl (cost_step ct pref) (initAcc cache)).sched.map
        fun td => (td.2.map fun ds => bucketPenaltySpec ds.2).sum).sum ∧
    pairPenaltySpec 0 = 0 := by
  constructor
  · show (tt.foldl (cost_step ct pref) (initAcc cache)).penalty +
        day_pass (tt.foldl (cost_step ct pref) (initAcc cache)).sched = _
    unfold day_pass
    simp only [bucketPenalty_eq]
  · rfl

theorem cacheLookup_valid (cache : Cache) (hv : CacheValid cache) (s : String) (v : PSlot)
    (h : cacheLookup cache s = some v) : parse_slot_pure s = some v := by
  unfold cacheLookup at h
  rcases Option.map_eq_some'.mp h with ⟨p, hp, hpv⟩
  have hm := List.mem_of_find?_eq_some hp
  have hb := List.find?_some hp
  have hks : p.1 = s := by simpa using hb
  have := hv p hm
  rw [hks, hpv] at this
  exact this

theorem parse_slot_fst (cache : Cache) (s : String) (hv : CacheValid cache) :
    (parse_slot cache s).1 = parse_slot_pure s := by
  unfold parse_slot
  split
  · rename_i v hl
    exact (cacheLookup_valid cache hv s v hl).symm
  · split
    · rename_i v hp
      exact hp.symm
    · rename_i hp
      exact hp.symm

theorem parse_slot_snd_valid (cache : Cache) (s : String) (hv : CacheValid cache) :
    CacheValid (parse_slot cache s).2 := by
  unfold parse_slot
  split
  · exact hv
  · split
    · rename_i v hp
      intro p hm
      rcases List.mem_append.mp hm with h1 | h2
      · exact hv p h1
      · rw [List.mem_singleton] at h2
        subst h2
        exact hp
    · exact hv

theorem hard_checks_penalty_ge (pref : List (String × List String))
    (teacher slot room : String) (p : Nat) (uf ur : List (String × String)) :
    p ≤ (hard_checks pref teacher slot room p uf ur).1 := by
  simp only [hard_checks]
  split <;> split <;> split <;> omega

theorem hard_checks_zero (pref : List (String × List String))
    (teacher slot room : String) (p : Nat) (uf ur : List (String × String))
    (h : (hard_checks pref teacher slot room p uf ur).1 = p) :
    (teacher, slot) ∉ uf ∧ (room, slot) ∉ ur ∧
    (hard_checks pref teacher slot room p uf ur).2.1 = (teacher, slot) :: uf ∧
    (hard_checks pref teacher slot room p uf ur).2.2 = (room, slot) :: ur := by
  have h1 : (0:Nat) < WEIGHTS.teacher_slot_conflict := by decide
  have h2 : (0:Nat) < WEIGHTS.room_slot_conflict := by decide
  have h3 : (0:Nat) < WEIGHTS.not_preferred := by decide
  by_cases c1 : (teacher, slot) ∈ uf
  · exfalso
    by_cases c2 : (room, slot) ∈ ur <;>
      by_cases c3 : dictGet pref teacher [] ≠ [] ∧ slot ∉ dictGet pref teacher [] <;>
        simp [hard_checks, c1, c2, c3] at h <;> omega
  · by_cases c2 : (room, slot) ∈ ur
    · exfalso
      by_cases c3 : dictGet pref teacher [] ≠ [] ∧ slot ∉ dictGet pref teacher [] <;>
        simp [hard_checks, c1, c2, c3] at h <;> omega
    · refine ⟨c1, c2, ?_, ?_⟩ <;> simp [hard_checks, c1, c2]

theorem cost_step_penalty_ge (ct : List (String × String)) (pref : List (String × List String))
    (acc : EvalAcc) (a : Assignment) : acc.penalty ≤ (cost_step ct pref acc a).penalty := by
  have hge := hard_checks_penalty_ge pref (dictGet ct a.1 "") a.2.1 a.2.2
    acc.penalty acc.used_faculty acc.used_rooms
  simp only [cost_step]
  split
  · exact Nat.le_add_right _ _
  · split
    · exact hge
    · exact le_trans hge (Nat.le_add_right _ _)

theorem cost_step_zero (ct : List (String × String)) (pref : List (String × List String))
    (acc : EvalAcc) (a : Assignment) (hv : CacheValid acc.cache)
    (h : (cost_step ct pref acc a).penalty = acc.penalty) :
    dictGet ct a.1 "" ≠ "" ∧ (parse_slot_pure a.2.1).isSome = true ∧
    facKey ct a ∉ acc.used_faculty ∧ roomKey a ∉ acc.used_rooms ∧
    (cost_step ct pref acc a).used_faculty = facKey ct a :: acc.used_faculty ∧
    (cost_step ct pref acc a).used_rooms = roomKey a :: acc.used_rooms ∧
    CacheValid (cost_step ct pref acc a).cache := by
  have hmt : (0:Nat) < WEIGHTS.missing_teacher := by decide
  have hms : (0:Nat) < WEIGHTS.malformed_slot := by decide
  have hge := hard_checks_penalty_ge pref (dictGet ct a.1 "") a.2.1 a.2.2
    acc.penalty acc.used_faculty acc.used_rooms
  have e1 := parse_slot_fst acc.cache a.2.1 hv
  have hvc := parse_slot_snd_valid acc.cache a.2.1 hv
  simp only [cost_step] at h ⊢
  split at h
  · exfalso
    simp at h
    omega
  · rename_i hne
    rcases hps : parse_slot_pure a.2.1 with _ | ps
    · exfalso
      rw [hps] at e1
      simp only [e1] at h
      omega
    · rw [hps] at e1
      simp only [e1] at h ⊢
      obtain ⟨hnf, hnr, huf, hur⟩ := hard_checks_zero pref (dictGet ct a.1 "") a.2.1 a.2.2
        acc.penalty acc.used_faculty acc.used_rooms h
      simp only [if_neg hne]
      exact ⟨hne, by simp [hps], hnf, hnr, huf, hur, hvc⟩

theorem foldl_penalty_ge (ct : List (String × String)) (pref : List (String × List String)) :
    ∀ (l : List Assignment) (acc : EvalAcc),
      acc.penalty ≤ (l.foldl (cost_step ct pref) acc).penalty := by
  intro l
  induction l with
  | nil => intro acc; exact le_refl _
  | cons a t ih =>
      intro acc
      exact le_trans (cost_step_penalty_ge ct pref acc a) (ih _)

theorem zero_chunk (ct : List (String × String)) (pref : List (String × List String)) :
    ∀ (l : List Assignment) (acc : EvalAcc), CacheValid acc.cache →
    (l.foldl (cost_step ct pref) acc).penalty = acc.penalty →
    (∀ a ∈ l, dictGet ct a.1 "" ≠ "" ∧ (parse_slot_pure a.2.1).isSome = true) ∧
    (∀ a ∈ l, facKey ct a ∉ acc.used_faculty ∧ roomKey a ∉ acc.used_rooms) ∧
    (l.map (facKey ct)).Nodup ∧ (l.map roomKey).Nodup := by
  intro l
  induction l with
  | nil =>
      intro acc _ _
      exact ⟨by simp, by simp, by simp, by simp⟩
  | cons a t ih =>
      intro acc hv h
      rw [List.foldl_cons] at h
      have hstep_le := cost_step_penalty_ge ct pref acc a
      have hfold_le := foldl_penalty_ge ct pref t (cost_step ct pref acc a)
      have hstep : (cost_step ct pref acc a).penalty = acc.penalty := by omega
      obtain ⟨hne, hparse, hnf, hnr, huf, hur, hvc⟩ := cost_step_zero ct pref acc a hv hstep
      have ht : (t.foldl (cost_step ct pref) (cost_step ct pref acc a)).penalty =
          (cost_step ct pref acc a).penalty := by omega
      obtain ⟨ih1, ih2, ih3, ih4⟩ := ih (cost_step ct pref acc a) hvc ht
      refine ⟨?_, ?_, ?_, ?_⟩
      · intro x hx
        rcases List.mem_cons.mp hx with rfl | hx'
        · exact ⟨hne, hparse⟩
        · exact ih1 x hx'
      · intro x hx
        rcases List.mem_cons.mp hx with rfl | hx'
        · exact ⟨hnf, hnr⟩
        · have h2 := ih2 x hx'
          rw [huf, hur] at h2
          exact ⟨fun hm => h2.1 (List.mem_cons_of_mem _ hm),
                 fun hm => h2.2 (List.mem_cons_of_mem _ hm)⟩
      · rw [List.map_cons, List.nodup_cons]
        refine ⟨?_, ih3⟩
        intro hm
        rcases List.mem_map.mp hm with ⟨x, hx, hkey⟩
        have h2 := (ih2 x hx).1
        rw [huf] at h2
        exact h2 (hkey ▸ List.mem_cons_self _ _)
      · rw [List.map_cons, List.nodup_cons]
        refine ⟨?_, ih4⟩
        intro hm
        rcases List.mem_map.mp hm with ⟨x, hx, hkey⟩
        have h2 := (ih2 x hx).2
        rw [hur] at h2
        exact h2 (hkey ▸ List.mem_cons_self _ _)

/-- C2: confirmed.  If the evaluator returns 0 on a solution — under the
invariant that every prior slot-cache entry is the pure parse of its key,
which holds of every cache state the program can produce — then every
course of the solution maps to a non-empty teacher, no two assignments
share a (teacher, slot) pair, no two share a (room, slot) pair, and every
slot label of the solution parses successfully. -/
theorem zero_cost_no_hard_conflicts (ct : List (String × String))
    (pref : List (String × List String)) (cache : Cache) (tt : Timetable)
    (hv : CacheValid cache) (h : (cost_function ct pref cache tt).1 = 0) :
    (∀ a ∈ tt, dictGet ct a.1 "" ≠ "") ∧
    (tt.map (facKey ct)).Nodup ∧ (tt.map roomKey).Nodup ∧
    (∀ a ∈ tt, (parse_slot_pure a.2.1).isSome = true) := by
  have hsum : (tt.foldl (cost_step ct pref) (initAcc cache)).penalty +
      day_pass (tt.foldl (cost_step ct pref) (initAcc cache)).sched = 0 := h
  have h0 : (tt.foldl (cost_step ct pref) (initAcc cache)).penalty = (initAcc cache).penalty := by
    show (tt.foldl (cost_step ct pref) (initAcc cache)).penalty = 0
    omega
  obtain ⟨z1, z2, z3, z4⟩ := zero_chunk ct pref tt (initAcc cache) hv h0
  exact ⟨fun a ha => (z1 a ha).1, z3, z4, fun a ha => (z1 a ha).2⟩

theorem zero_cost_no_hard_conflicts_witness :
    CacheValid [] ∧
    (cost_function [("A", "T")] [] [] [("A", "Mon 09:00-10:00", "R")]).1 = 0 ∧
    ((∀ a ∈ ([("A", "Mon 09:00-10:00", "R")] : Timetable), dictGet [("A", "T")] a.1 "" ≠ "") ∧
     (([("A", "Mon 09:00-10:00", "R")] : Timetable).map (facKey [("A", "T")])).Nodup ∧
     (([("A", "Mon 09:00-10:00", "R")] : Timetable).map roomKey).Nodup ∧
     (∀ a ∈ ([("A", "Mon 09:00-10:00", "R")] : Timetable),
        (parse_slot_pure a.2.1).isSome = true)) :=
  ⟨fun p hp => absurd hp (List.not_mem_nil p), by decide,
   zero_cost_no_hard_conflicts [("A", "T")] [] [] [("A", "Mon 09:00-10:00", "R")]
     (fun p hp => absurd hp (List.not_mem_nil p)) (by decide)⟩

theorem cost_step_bisim (ct : List (String × String)) (pref : List (String × List String))
    (acc1 acc2 : EvalAcc) (a : Assignment)
    (hv1 : CacheValid acc1.cache) (hv2 : CacheValid acc2.cache)
    (hp : acc1.penalty = acc2.penalty) (hf : acc1.used_faculty = acc2.used_faculty)
    (hr : acc1.used_rooms = acc2.used_rooms) (hs : acc1.sched = acc2.sched) :
    (cost_step ct pref acc1 a).penalty = (cost_step ct pref acc2 a).penalty ∧
    (cost_step ct pref acc1 a).used_faculty = (cost_step ct pref acc2 a).used_faculty ∧
    (cost_step ct pref acc1 a).used_rooms = (cost_step ct pref acc2 a).used_rooms ∧
    (cost_step ct pref acc1 a).sched = (cost_step ct pref acc2 a).sched ∧
    CacheValid (cost_step ct pref acc1 a).cache ∧
    CacheValid (cost_step ct pref acc2 a).cache := by
  have e1 := parse_slot_fst acc1.cache a.2.1 hv1
  have e2 := parse_slot_fst acc2.cache a.2.1 hv2
  have hvc1 := parse_slot_snd_valid acc1.cache a.2.1 hv1
  have hvc2 := parse_slot_snd_valid acc2.cache a.2.1 hv2
  simp only [cost_step]
  split
  · simp_all
  · rcases hps : parse_slot_pure a.2.1 with _ | ps
    · rw [hps] at e1 e2
      simp only [e1, e2]
      simp_all
    · rw [hps] at e1 e2
      simp only [e1, e2]
      simp_all

theorem foldl_bisim (ct : List (String × String)) (pref : List (String × List String)) :
    ∀ (l : List Assignment) (acc1 acc2 : EvalAcc),
    CacheValid acc1.cache → CacheValid acc2.cache →
    acc1.penalty = acc2.penalty → acc1.used_faculty = acc2.used_faculty →
    acc1.used_rooms = acc2.used_rooms → acc1.sched = acc2.sched →
    (l.foldl (cost_step ct pref) acc1).penalty = (l.foldl (cost_step ct pref) acc2).penalty ∧
    (l.foldl (cost_step ct pref) acc1).sched = (l.foldl (cost_step ct pref) acc2).sched := by
  intro l
  induction l with
  | nil =>
      intro acc1 acc2 _ _ hp _ _ hs
      exact ⟨hp, hs⟩
  | cons a t ih =>
      intro acc1 acc2 hv1 hv2 hp hf hr hs
      obtain ⟨p', f', r', s', v1, v2⟩ := cost_step_bisim ct pref acc1 acc2 a hv1 hv2 hp hf hr hs
      exact ih _ _ v1 v2 p' f' r' s'

/-- C4: corrected.  The claim says the result is independent of the prior
contents of any cache and that the SlotIndex cache is the only hidden state
the evaluator touches.  In the code cost_function also reads the
_course_teacher_cache dict (line 81), a second piece of hidden cache state
whose contents do change the result (see counterexample: same solution,
same preferred_slots and weights, a stale empty teacher cache gives 20000
instead of 0).  What holds, stated here: the result is independent of the
slot-parse cache whenever every entry of that cache equals the pure parse
of its key, which is true of every cache state the program writes. -/
theorem cost_function_slot_cache_independent (ct : List (String × String))
    (pref : List (String × List String)) (c1 c2 : Cache) (tt : Timetable)
    (hv1 : CacheValid c1) (hv2 : CacheValid c2) :
    (cost_function ct pref c1 tt).1 = (cost_function ct pref c2 tt).1 := by
  obtain ⟨hp, hs⟩ := foldl_bisim ct pref tt (initAcc c1) (initAcc c2) hv1 hv2 rfl rfl rfl rfl
  show (tt.foldl (cost_step ct pref) (initAcc c1)).penalty +
      day_pass (tt.foldl (cost_step ct pref) (initAcc c1)).sched = _
  rw [hp, hs]
  rfl

theorem cost_function_slot_cache_independent_witness :
    CacheValid [] ∧ CacheValid [("Mon 09:00-10:00", ⟨"Mon", 540⟩)] ∧
    (cost_function [("A", "T")] [] [] [("A", "Mon 09:00-10:00", "R")]).1 =
      (cost_function [("A", "T")] [] [("Mon 09:00-10:00", ⟨"Mon", 540⟩)]
        [("A", "Mon 09:00-10:00", "R")]).1 :=
  ⟨fun p hp => absurd hp (List.not_mem_nil p),
   fun p hp => by
     rw [List.mem_singleton] at hp
     subst hp
     decide,
   cost_function_slot_cache_independent [("A", "T")] [] [] [("Mon 09:00-10:00", ⟨"Mon", 540⟩)]
     [("A", "Mon 09:00-10:00", "R")]
     (fun p hp => absurd hp (List.not_mem_nil p))
     (fun p hp => by
       rw [List.mem_singleton] at hp
       subst hp
       decide)⟩

theorem cost_function_teacher_cache_dependent :
    (cost_function [("A", "T")] [] [] [("A", "Mon 09:00-10:00", "R")]).1 = 0 ∧
    (cost_function [] [] [] [("A", "Mon 09:00-10:00", "R")]).1 = 20000 := by
  exact ⟨by decide, by decide⟩

structure Config where
  courses : List String
  faculty : List (String × String)
  rooms : List String
  slots : List String
  preferred_slots : List (String × List String)
  requirements : List (String × Nat)
deriving DecidableEq

/- random.choice(l): some element of l at an arbitrary in-range index
   (the oracle index is reduced mod the length); IndexError on an empty
   list, modelled by none. -/
def pyChoice {α : Type} (l : List α) (k : Nat) : Option α := l.get? (k % l.length)

/- Oracle for the random draws of random_solution: session i draws a
   float p i (tested against 0.8) and choice indices. -/
structure GRand where
  p : Nat → ℚ
  slotIdx : Nat → Nat
  roomIdx : Nat → Nat

/- One session body of random_solution (main.py lines 147-153): a teacher
   with a non-empty preference list draws from it with probability 0.8,
   otherwise from the full slot catalog; the room is always drawn from the
   room catalog. -/
def gen_session (cfg : Config) (r : GRand) (k : Nat) (course : String) : Option Assignment :=
  let teacher := dictGet cfg.faculty course ""
  let pl := dictGet cfg.preferred_slots teacher []
  let slot? :=
    if pl ≠ [] then
      if r.p k < 8/10 then pyChoice pl (r.slotIdx k) else pyChoice cfg.slots (r.slotIdx k)
    else pyChoice cfg.slots (r.slotIdx k)
  match slot?, pyChoice cfg.rooms (r.roomIdx k) with
  | some s, some rm => some (course, s, rm)
  | _, _ => none

/- The inner `for _ in range(count)` loop of random_solution; k is the
   global session counter indexing the oracle. -/
def gen_repeat (cfg : Config) (r : GRand) (course : String) : Nat → Nat → Option (List Assignment)
  | _, 0 => some []
  | k, n+1 =>
      match gen_session cfg r k course with
      | none => none
      | some a =>
          match gen_repeat cfg r course (k+1) n with
          | none => none
          | some rest => some (a :: rest)

/- The outer `for course in courses` loop of random_solution; the session
   count is requirements.get(course, 1) (main.py line 145). -/
def gen_courses (cfg : Config) (r : GRand) : Nat → List String → Option Timetable
  | _, [] => some []
  | k, c :: cs =>
      match gen_repeat cfg r c k (dictGet cfg.requirements c 1) with
      | none => none
      | some xs =>
          match gen_courses cfg r (k + dictGet cfg.requirements c 1) cs with
          | none => none
          | some rest => some (xs ++ rest)

/- random_solution (main.py lines 135-154).  It performs no emptiness
   precheck on any catalog. -/
def random_solution (cfg : Config) (r : GRand) : Option Timetable :=
  gen_courses cfg r 0 cfg.courses

/- Total session count as the code computes it: default 1 when a course is
   absent from requirements (main.py line 145). -/
def requiredSessions (cfg : Config) : Nat :=
  (cfg.courses.map fun c => dictGet cfg.requirements c 1).sum

/- Spec-side session count ("default 2 where unspecified", spec section 8). -/
def requiredSessionsSpec (cfg : Config) : Nat :=
  (cfg.courses.map fun c => dictGet cfg.requirements c 2).sum

theorem pyChoice_eq_some {α : Type} (l : List α) (k : Nat) (h : l ≠ []) :
    ∃ v, pyChoice l k = some v ∧ v ∈ l := by
  have hl : 0 < l.length := List.length_pos.mpr h
  have hk : k % l.length < l.length := Nat.mod_lt _ hl
  exact ⟨l.get ⟨k % l.length, hk⟩, List.get?_eq_get hk, List.get_mem l _ _⟩

theorem gen_session_isSome (cfg : Config) (r : GRand) (k : Nat) (course : String)
    (hs : cfg.slots ≠ []) (hr : cfg.rooms ≠ []) :
    ∃ a, gen_session cfg r k course = some a := by
  rcases pyChoice_eq_some cfg.rooms (r.roomIdx k) hr with ⟨rm, hrm, _⟩
  by_cases hpl : dictGet cfg.preferred_slots (dictGet cfg.faculty course "") [] ≠ []
  · by_cases hq : r.p k < 8/10
    · rcases pyChoice_eq_some _ (r.slotIdx k) hpl with ⟨s, hsome, _⟩
      exact ⟨(course, s, rm), by simp [gen_session, hpl, hq, hsome, hrm]⟩
    · rcases pyChoice_eq_some cfg.slots (r.slotIdx k) hs with ⟨s, hsome, _⟩
      exact ⟨(course, s, rm), by simp [gen_session, hpl, hq, hsome, hrm]⟩
  · rcases pyChoice_eq_some cfg.slots (r.slotIdx k) hs with ⟨s, hsome, _⟩
    exact ⟨(course, s, rm), by simp [gen_session, hpl, hsome, hrm]⟩

theorem gen_repeat_length (cfg : Config) (r : GRand) (course : String)
    (hs : cfg.slots ≠ []) (hr : cfg.rooms ≠ []) :
    ∀ (n k : Nat), ∃ l, gen_repeat cfg r course k n = some l ∧ l.length = n := by
  intro n
  induction n with
  | zero => intro k; exact ⟨[], rfl, rfl⟩
  | succ m ih =>
      intro k
      rcases gen_session_isSome cfg r k course hs hr with ⟨a, ha⟩
      rcases ih (k+1) with ⟨rest, hrest, hlen⟩
      exact ⟨a :: rest, by simp [gen_repeat, ha, hrest], by simp [hlen]⟩

theorem gen_courses_length (cfg : Config) (r : GRand)
    (hs : cfg.slots ≠ []) (hr : cfg.rooms ≠ []) :
    ∀ (cs : List String) (k : Nat), ∃ l, gen_courses cfg r k cs = some l ∧
      l.length = (cs.map fun c => dictGet cfg.requirements c 1).sum := by
  intro cs
  induction cs with
  | nil => intro k; exact ⟨[], rfl, rfl⟩
  | cons c rest ih =>
      intro k
      rcases gen_repeat_length cfg r c hs hr (dictGet cfg.requirements c 1) k with ⟨xs, hxs, hlx⟩
      rcases ih (k + dictGet cfg.requirements c 1) with ⟨ys, hys, hly⟩
      exact ⟨xs ++ ys, by simp [gen_courses, hxs, hys], by simp [hlx, hly]⟩

/-- C1: corrected.  The claim says the generated solution's length is the
sum of requirements[course] with a default of 2 for absent courses.  The
code's default is 1 (requirements.get(course, 1), main.py line 145); the
value 2 only arises because generate_timetable explicitly assigns
requirements = {c: 2 for c in courses} before calling the generator, so no
course is absent there.  Amended (proved here): with non-empty slot and
room catalogs the generated solution's length is the sum of
requirements[course] with default 1; the counterexample shows an absent
course yields 1 session, not 2. -/
theorem random_solution_length (cfg : Config) (r : GRand)
    (hs : cfg.slots ≠ []) (hr : cfg.rooms ≠ []) :
    (random_solution cfg r).map List.length = some (requiredSessions cfg) := by
  rcases gen_courses_length cfg r hs hr cfg.courses 0 with ⟨l, hl, hlen⟩
  rw [random_solution, hl]
  simp [hlen, requiredSessions]

theorem random_solution_length_witness :
    (⟨["A"], [("A", "T")], ["R1"], ["Mon 09:00-10:00"], [], []⟩ : Config).slots ≠ [] ∧
    (⟨["A"], [("A", "T")], ["R1"], ["Mon 09:00-10:00"], [], []⟩ : Config).rooms ≠ [] ∧
    (random_solution ⟨["A"], [("A", "T")], ["R1"], ["Mon 09:00-10:00"], [], []⟩
        ⟨fun _ => 0, fun _ => 0, fun _ => 0⟩).map List.length =
      some (requiredSessions ⟨["A"], [("A", "T")], ["R1"], ["Mon 09:00-10:00"], [], []⟩) :=
  ⟨by decide, by decide,
   random_solution_length ⟨["A"], [("A", "T")], ["R1"], ["Mon 09:00-10:00"], [], []⟩
     ⟨fun _ => 0, fun _ => 0, fun _ => 0⟩ (by decide) (by decide)⟩

theorem random_solution_default_two_false :
    (random_solution ⟨["A"], [("A", "T")], ["R1"], ["Mon 09:00-10:00"], [], []⟩
        ⟨fun _ => 0, fun _ => 0, fun _ => 0⟩).map List.length = some 1 ∧
    requiredSessionsSpec ⟨["A"], [("A", "T")], ["R1"], ["Mon 09:00-10:00"], [], []⟩ = 2 :=
  ⟨by decide, by decide⟩

theorem gen_session_rooms_empty (cfg : Config) (r : GRand) (k : Nat) (course : String)
    (hrooms : cfg.rooms = []) : gen_session cfg r k course = none := by
  simp only [gen_session, hrooms]
  split
  · rename_i s rm hs0 hrm
    exact absurd hrm (by simp [pyChoice])
  · rfl

theorem gen_repeat_rooms_empty (cfg : Config) (r : GRand) (course : String)
    (hrooms : cfg.rooms = []) : ∀ (n k : Nat), 0 < n → gen_repeat cfg r course k n = none := by
  intro n k hn
  cases n with
  | zero => omega
  | succ m => simp [gen_repeat, gen_session_rooms_empty cfg r k course hrooms]

theorem gen_courses_rooms_empty (cfg : Config) (r : GRand) (hrooms : cfg.rooms = []) :
    ∀ (cs : List String) (k : Nat),
      0 < (cs.map fun c => dictGet cfg.requirements c 1).sum →
      gen_courses cfg r k cs = none := by
  intro cs
  induction cs with
  | nil =>
      intro k h
      simp at h
  | cons c rest ih =>
      intro k h
      rcases Nat.eq_zero_or_pos (dictGet cfg.requirements c 1) with h0 | hpos
      · have hrest : 0 < (rest.map fun x => dictGet cfg.requirements x 1).sum := by
          simp only [List.map_cons, List.sum_cons, h0, Nat.zero_add] at h
          exact h
        simp [gen_courses, h0, gen_repeat, ih _ hrest]
      · simp [gen_courses, gen_repeat_rooms_empty cfg r c hrooms _ k hpos]

/-- C3: corrected.  The claim says the generator fails with
InvalidConfigurationError before any draw when the room or slot catalog is
empty and never returns a solution.  The code defines no such exception
and does no precheck: with an empty course list random_solution returns
the empty solution even when both catalogs are empty (counterexample), and
with at least one required session and an empty room catalog it fails only
at the draw inside the loop (IndexError from random.choice, modelled as
none).  generate_timetable separately rejects empty inputs, but by showing
a messagebox and returning, not by raising. -/
theorem random_solution_no_fail_fast (cfg : Config) (r : GRand) :
    (cfg.courses = [] → random_solution cfg r = some []) ∧
    (cfg.rooms = [] → 0 < requiredSessions cfg → random_solution cfg r = none) := by
  constructor
  · intro hc
    rw [random_solution, hc]
    rfl
  · intro hrooms hpos
    rw [random_solution]
    exact gen_courses_rooms_empty cfg r hrooms cfg.courses 0 hpos

theorem random_solution_no_fail_fast_witness :
    random_solution ⟨[], [], ["R1"], ["Mon 09:00-10:00"], [], []⟩
        ⟨fun _ => 0, fun _ => 0, fun _ => 0⟩ = some [] ∧
    random_solution ⟨["A"], [], [], ["Mon 09:00-10:00"], [], []⟩
        ⟨fun _ => 0, fun _ => 0, fun _ => 0⟩ = none :=
  ⟨(random_solution_no_fail_fast ⟨[], [], ["R1"], ["Mon 09:00-10:00"], [], []⟩
      ⟨fun _ => 0, fun _ => 0, fun _ => 0⟩).1 rfl,
   (random_solution_no_fail_fast ⟨["A"], [], [], ["Mon 09:00-10:00"], [], []⟩
      ⟨fun _ => 0, fun _ => 0, fun _ => 0⟩).2 rfl (by decide)⟩

theorem random_solution_empty_catalog_returns :
    random_solution ⟨[], [], [], [], [], []⟩ ⟨fun _ => 0, fun _ => 0, fun _ => 0⟩ = some [] :=
  rfl

/- Oracle for the random draws of neighbor_solution: the move selector,
   the two sample indices of random.sample (encoded so the derived pair is
   always distinct), the 0.7 swap-kind / preference rolls, the position
   index, the 0.25 keep-room roll and the choice indices. -/
structure NRand where
  move : ℚ
  samp1 : Nat
  samp2 : Nat
  swapKind : ℚ
  idx : Nat
  prefRoll : ℚ
  slotIdx : Nat
  roomRoll : ℚ
  roomIdx : Nat

/- neighbor_solution (main.py lines 156-191).  The first component of the
   result is the contents of the caller's list after the call: the code
   only ever assigns into new_tt = list(timetable) (a shallow copy of
   immutable tuples), never into timetable, so that component is the
   unchanged input in every branch.  The second component is the returned
   neighbor, none modelling an IndexError from random.choice on an empty
   catalog. -/
def neighbor_solution (cfg : Config) (r : NRand) (timetable : Timetable) :
    Timetable × Option Timetable :=
  if timetable = [] then (timetable, some [])
  else
    let L := timetable.length
    if r.move < 45/100 ∧ 2 ≤ L then
      let i := r.samp1 % L
      let j0 := r.samp2 % (L - 1)
      let j := if j0 < i then j0 else j0 + 1
      match timetable.get? i, timetable.get? j with
      | some a1, some a2 =>
          if r.swapKind < 7/10 then
            (timetable, some ((timetable.set i (a1.1, a2.2.1, a1.2.2)).set j
              (a2.1, a1.2.1, a2.2.2)))
          else
            (timetable, some ((timetable.set i a2).set j a1))
      | _, _ => (timetable, none)
    else if r.move < 85/100 then
      let idx := r.idx % L
      match timetable.get? idx with
      | some a =>
          let teacher := dictGet cfg.faculty a.1 ""
          let pl := dictGet cfg.preferred_slots teacher []
          match (if pl ≠ [] ∧ r.prefRoll < 7/10 then pyChoice pl r.slotIdx
                 else pyChoice cfg.slots r.slotIdx) with
          | some s' =>
              if r.roomRoll < 25/100 then (timetable, some (timetable.set idx (a.1, s', a.2.2)))
              else
                match pyChoice cfg.rooms r.roomIdx with
                | some rm => (timetable, some (timetable.set idx (a.1, s', rm)))
                | none => (timetable, none)
          | none => (timetable, none)
      | none => (timetable, none)
    else
      let idx := r.idx % L
      match timetable.get? idx, pyChoice cfg.rooms r.roomIdx with
      | some a, some rm => (timetable, some (timetable.set idx (a.1, a.2.1, rm)))
      | _, _ => (timetable, none)

/-- C9: confirmed.  From the caller's perspective the input solution is
unchanged by the neighborhood operator: the first component of the model —
the contents of the caller's list after the call, tracking that every
assignment statement in the code targets the shallow copy new_tt and the
stored triples are immutable tuples — equals the input in every branch,
for every oracle and every configuration. -/
theorem neighbor_solution_preserves_input (cfg : Config) (r : NRand) (tt : Timetable) :
    (neighbor_solution cfg r tt).1 = tt := by
  simp only [neighbor_solution]
  repeat' split
  all_goals rfl

theorem neighbor_singleton_slotmove (cfg : Config) (r : NRand) (a : Assignment)
    (hs : cfg.slots ≠ []) (hr : cfg.rooms ≠ []) (hm : r.move < 85/100) :
    ∃ s' rm', (neighbor_solution cfg r [a]).2 = some [(a.1, s', rm')] ∧
      (s' ∈ cfg.slots ∨ s' ∈ dictGet cfg.preferred_slots (dictGet cfg.faculty a.1 "") []) := by
  by_cases hpl : dictGet cfg.preferred_slots (dictGet cfg.faculty a.1 "") [] ≠ [] ∧
      r.prefRoll < 7/10
  · rcases pyChoice_eq_some _ r.slotIdx hpl.1 with ⟨s, hsome, hmem⟩
    by_cases hroom : r.roomRoll < 25/100
    · refine ⟨s, a.2.2, ?_, Or.inr hmem⟩
      simp [neighbor_solution, hm, hpl, hsome, hroom, Nat.mod_one]
    · rcases pyChoice_eq_some cfg.rooms r.roomIdx hr with ⟨rm, hrm, _⟩
      refine ⟨s, rm, ?_, Or.inr hmem⟩
      simp [neighbor_solution, hm, hpl, hsome, hroom, hrm, Nat.mod_one]
  · rcases pyChoice_eq_some cfg.slots r.slotIdx hs with ⟨s, hsome, hmem⟩
    by_cases hroom : r.roomRoll < 25/100
    · refine ⟨s, a.2.2, ?_, Or.inl hmem⟩
      simp [neighbor_solution, hm, hpl, hsome, hroom, Nat.mod_one]
    · rcases pyChoice_eq_some cfg.rooms r.roomIdx hr with ⟨rm, hrm, _⟩
      refine ⟨s, rm, ?_, Or.inl hmem⟩
      simp [neighbor_solution, hm, hpl, hsome, hroom, hrm, Nat.mod_one]

theorem neighbor_singleton_roommove (cfg : Config) (r : NRand) (a : Assignment)
    (hr : cfg.rooms ≠ []) (hm : ¬ r.move < 85/100) :
    ∃ rm', (neighbor_solution cfg r [a]).2 = some [(a.1, a.2.1, rm')] ∧ rm' ∈ cfg.rooms := by
  rcases pyChoice_eq_some cfg.rooms r.roomIdx hr with ⟨rm, hrm, hmemr⟩
  refine ⟨rm, ?_, hmemr⟩
  simp [neighbor_solution, hm, hrm, Nat.mod_one]

/-- C10: confirmed.  On a solution of length exactly 1 the two-position
swap move is never applied (its guard requires at least 2 assignments):
with non-empty catalogs, for every oracle the operator returns a length-1
solution carrying the original course; any move draw below 0.85 — in
particular also below 0.45 — performs the single-position slot
reassignment (the new slot comes from the teacher's preference list or the
slot catalog), and a draw at or above 0.85 performs the room-only move,
leaving the slot unchanged and drawing the room from the room catalog. -/
theorem neighbor_solution_singleton (cfg : Config) (r : NRand) (a : Assignment)
    (hs : cfg.slots ≠ []) (hr : cfg.rooms ≠ []) :
    ((neighbor_solution cfg r [a]).2).isSome = true ∧
    ∀ tt', (neighbor_solution cfg r [a]).2 = some tt' →
      tt'.map Prod.fst = [a.1] ∧
      ((85:ℚ)/100 ≤ r.move →
        tt'.map (fun x => x.2.1) = [a.2.1] ∧ ∀ x ∈ tt', x.2.2 ∈ cfg.rooms) ∧
      (r.move < 85/100 → ∀ x ∈ tt',
        x.2.1 ∈ cfg.slots ∨
        x.2.1 ∈ dictGet cfg.preferred_slots (dictGet cfg.faculty a.1 "") []) := by
  by_cases hm : r.move < 85/100
  · rcases neighbor_singleton_slotmove cfg r a hs hr hm with ⟨s', rm', hval, hsm⟩
    refine ⟨by rw [hval]; rfl, ?_⟩
    intro tt' h'
    rw [hval] at h'
    injection h' with h''
    subst h''
    refine ⟨rfl, fun hcon => absurd hcon (not_le.mpr hm), ?_⟩
    intro _ x hx
    rw [List.mem_singleton] at hx
    subst hx
    exact hsm
  · rcases neighbor_singleton_roommove cfg r a hr hm with ⟨rm', hval, hmemr⟩
    refine ⟨by rw [hval]; rfl, ?_⟩
    intro tt' h'
    rw [hval] at h'
    injection h' with h''
    subst h''
    refine ⟨rfl, ?_, fun hcon => absurd hcon hm⟩
    intro _
    refine ⟨rfl, ?_⟩
    intro x hx
    rw [List.mem_singleton] at hx
    subst hx
    exact hmemr

theorem neighbor_solution_singleton_witness :
    (⟨["A"], [("A", "T")], ["R1"], ["Mon 09:00-10:00"], [], []⟩ : Config).slots ≠ [] ∧
    (⟨["A"], [("A", "T")], ["R1"], ["Mon 09:00-10:00"], [], []⟩ : Config).rooms ≠ [] ∧
    (((neighbor_solution ⟨["A"], [("A", "T")], ["R1"], ["Mon 09:00-10:00"], [], []⟩
        ⟨1/2, 0, 0, 0, 0, 0, 0, 0, 0⟩ [("A", "Mon 09:00-10:00", "R1")]).2).isSome = true ∧
     ∀ tt', (neighbor_solution ⟨["A"], [("A", "T")], ["R1"], ["Mon 09:00-10:00"], [], []⟩
        ⟨1/2, 0, 0, 0, 0, 0, 0, 0, 0⟩ [("A", "Mon 09:00-10:00", "R1")]).2 = some tt' →
      tt'.map Prod.fst = [("A", "Mon 09:00-10:00", ("R1" : String)).1] ∧
      ((85:ℚ)/100 ≤ (⟨1/2, 0, 0, 0, 0, 0, 0, 0, 0⟩ : NRand).move →
        tt'.map (fun x => x.2.1) = [("A", "Mon 09:00-10:00", ("R1" : String)).2.1] ∧
        ∀ x ∈ tt', x.2.2 ∈
          (⟨["A"], [("A", "T")], ["R1"], ["Mon 09:00-10:00"], [], []⟩ : Config).rooms) ∧
      ((⟨1/2, 0, 0, 0, 0, 0, 0, 0, 0⟩ : NRand).move < 85/100 → ∀ x ∈ tt',
        x.2.1 ∈ (⟨["A"], [("A", "T")], ["R1"], ["Mon 09:00-10:00"], [], []⟩ : Config).slots ∨
        x.2.1 ∈ dictGet
          (⟨["A"], [("A", "T")], ["R1"], ["Mon 09:00-10:00"], [], []⟩ : Config).preferred_slots
          (dictGet (⟨["A"], [("A", "T")], ["R1"], ["Mon 09:00-10:00"], [], []⟩ : Config).faculty
            ("A", "Mon 09:00-10:00", ("R1" : String)).1 "") [])) :=
  ⟨by decide, by decide,
   neighbor_solution_singleton ⟨["A"], [("A", "T")], ["R1"], ["Mon 09:00-10:00"], [], []⟩
     ⟨1/2, 0, 0, 0, 0, 0, 0, 0, 0⟩ ("A", "Mon 09:00-10:00", "R1") (by decide) (by decide)⟩

structure HistEntry where
  iter : Nat
  current_cost : Nat
  best_cost : Nat
deriving DecidableEq

structure SAState where
  current : Timetable
  current_cost : Nat
  best : Timetable
  best_cost : Nat
  T : ℚ
  history : List HistEntry
deriving DecidableEq

/- One iteration body of simulated_annealing (main.py lines 230-242).  The
   cost function, the neighbor draw and the acceptance draw are oracle
   parameters indexed by the iteration: delta < 0 always accepts (the
   Python or short-circuits), otherwise acceptance is the comparison of
   random.random() with exp(-delta / max(T, 1e-9)), abstracted as the
   boolean oracle acceptR.  The history row is appended whether or not the
   candidate was accepted. -/
def sa_iter (cost : Timetable → Nat) (neighborOf : Nat → Timetable → Timetable)
    (acceptR : Nat → Bool) (it : Nat) (st : SAState) : SAState :=
  let neighbor := neighborOf it st.current
  let neighbor_cost := cost neighbor
  let st1 :=
    if neighbor_cost < st.current_cost ∨ acceptR it = true then
      if neighbor_cost < st.best_cost then
        { st with current := neighbor, current_cost := neighbor_cost,
                  best := neighbor, best_cost := neighbor_cost }
      else { st with current := neighbor, current_cost := neighbor_cost }
    else st
  { st1 with history := st1.history ++ [⟨it, st1.current_cost, st1.best_cost⟩] }

/- The main loop of simulated_annealing (main.py lines 227-265): stop when
   T has decayed to at most 1e-8 (checked at the top), run the iteration,
   stop after recording history when stop_if_zero and the best cost is 0,
   and multiply T by alpha after each iteration. -/
def sa_loop (cost : Timetable → Nat) (neighborOf : Nat → Timetable → Timetable)
    (acceptR : Nat → Bool) (stop_if_zero : Bool) (alpha : ℚ) :
    Nat → Nat → SAState → SAState
  | 0, _, st => st
  | fuel+1, it, st =>
      if st.T ≤ mkRat 1 100000000 then st
      else
        if stop_if_zero = true ∧ (sa_iter cost neighborOf acceptR it st).best_cost = 0 then
          sa_iter cost neighborOf acceptR it st
        else
          sa_loop cost neighborOf acceptR stop_if_zero alpha fuel (it+1)
            { sa_iter cost neighborOf acceptR it st with
              T := (sa_iter cost neighborOf acceptR it st).T * alpha }

/- simulated_annealing (main.py lines 196-286), parametrised by the cost
   oracle, the neighbor oracle, the acceptance oracle and the initial
   solution (produced by random_solution in the code); live plotting is
   display-only and not modelled.  The initial solution is both current
   and best, and history starts empty. -/
def simulated_annealing (cost : Timetable → Nat) (neighborOf : Nat → Timetable → Timetable)
    (acceptR : Nat → Bool) (max_iter : Nat) (T0 alpha : ℚ) (stop_if_zero : Bool)
    (init : Timetable) : SAState :=
  sa_loop cost neighborOf acceptR stop_if_zero alpha max_iter 1
    ⟨init, cost init, init, cost init, T0, []⟩

def HistInv (it : Nat) (st : SAState) : Prop :=
  st.history.Pairwise (fun a b => a.iter < b.iter ∧ b.best_cost ≤ a.best_cost) ∧
  ∀ e ∈ st.history, st.best_cost ≤ e.best_cost ∧ e.iter < it

theorem sa_iter_best_le (cost : Timetable → Nat) (neighborOf : Nat → Timetable → Timetable)
    (acceptR : Nat → Bool) (it : Nat) (st : SAState) :
    (sa_iter cost neighborOf acceptR it st).best_cost ≤ st.best_cost := by
  simp only [sa_iter]
  split
  · split
    · rename_i hb
      exact le_of_lt hb
    · exact le_refl _
  · exact le_refl _

theorem sa_iter_hist (cost : Timetable → Nat) (neighborOf : Nat → Timetable → Timetable)
    (acceptR : Nat → Bool) (it : Nat) (st : SAState) :
    (sa_iter cost neighborOf acceptR it st).history =
      st.history ++ [⟨it, (sa_iter cost neighborOf acceptR it st).current_cost,
        (sa_iter cost neighborOf acceptR it st).best_cost⟩] := by
  simp only [sa_iter]
  split
  · split <;> rfl
  · rfl

theorem sa_iter_inv (cost : Timetable → Nat) (neighborOf : Nat → Timetable → Timetable)
    (acceptR : Nat → Bool) (it : Nat) (st : SAState) (h : HistInv it st) :
    HistInv (it + 1) (sa_iter cost neighborOf acceptR it st) := by
  obtain ⟨hpw, hall⟩ := h
  have hb := sa_iter_best_le cost neighborOf acceptR it st
  have hh := sa_iter_hist cost neighborOf acceptR it st
  constructor
  · rw [hh]
    rw [List.pairwise_append]
    refine ⟨hpw, by simp, ?_⟩
    intro a ha b hb'
    rw [List.mem_singleton] at hb'
    subst hb'
    exact ⟨(hall a ha).2, le_trans hb (hall a ha).1⟩
  · intro e he
    rw [hh] at he
    rcases List.mem_append.mp he with h1 | h2
    · exact ⟨le_trans hb (hall e h1).1, Nat.lt_succ_of_lt (hall e h1).2⟩
    · rw [List.mem_singleton] at h2
      subst h2
      exact ⟨le_refl _, Nat.lt_succ_self it⟩

theorem sa_loop_pairwise (cost : Timetable → Nat) (neighborOf : Nat → Timetable → Timetable)
    (acceptR : Nat → Bool) (stop_if_zero : Bool) (alpha : ℚ) :
    ∀ (fuel it : Nat) (st : SAState), HistInv it st →
      (sa_loop cost neighborOf acceptR stop_if_zero alpha fuel it st).history.Pairwise
        (fun a b => a.iter < b.iter ∧ b.best_cost ≤ a.best_cost) := by
  intro fuel
  induction fuel with
  | zero => intro it st h; exact h.1
  | succ m ih =>
      intro it st h
      rw [sa_loop]
      split
      · exact h.1
      · have h1 := sa_iter_inv cost neighborOf acceptR it st h
        split
        · exact h1.1
        · exact ih (it+1) _ ⟨h1.1, h1.2⟩

/-- C5: confirmed.  Across the iteration history of one annealing run —
for every cost oracle, neighbor oracle, acceptance oracle, iteration
budget, temperatures and initial solution — the recorded best_cost is
non-increasing in the iteration number: any history row with a larger
iteration number carries a best_cost less than or equal to that of any
row with a smaller iteration number. -/
theorem best_cost_monotone (cost : Timetable → Nat) (neighborOf : Nat → Timetable → Timetable)
    (acceptR : Nat → Bool) (max_iter : Nat) (T0 alpha : ℚ) (stop_if_zero : Bool)
    (init : Timetable) (e1 e2 : HistEntry)
    (h1 : e1 ∈ (simulated_annealing cost neighborOf acceptR max_iter T0 alpha stop_if_zero
      init).history)
    (h2 : e2 ∈ (simulated_annealing cost neighborOf acceptR max_iter T0 alpha stop_if_zero
      init).history)
    (hlt : e1.iter < e2.iter) : e2.best_cost ≤ e1.best_cost := by
  have hpw := sa_loop_pairwise cost neighborOf acceptR stop_if_zero alpha max_iter 1
    ⟨init, cost init, init, cost init, T0, []⟩ ⟨List.Pairwise.nil, by simp⟩
  have key : ∀ (l : List HistEntry),
      l.Pairwise (fun a b => a.iter < b.iter ∧ b.best_cost ≤ a.best_cost) →
      e1 ∈ l → e2 ∈ l → e2.best_cost ≤ e1.best_cost := by
    intro l hl
    induction l with
    | nil => intro hm; cases hm
    | cons x xs ihl =>
        intro hm1 hm2
        rcases List.pairwise_cons.mp hl with ⟨hx, hxs⟩
        rcases List.mem_cons.mp hm1 with rfl | hm1'
        · rcases List.mem_cons.mp hm2 with heq | hm2'
          · rw [heq] at hlt
            omega
          · exact (hx e2 hm2').2
        · rcases List.mem_cons.mp hm2 with heq | hm2'
          · have := (hx e1 hm1').1
            rw [heq] at hlt
            omega
          · exact ihl hxs hm1' hm2'
  exact key _ hpw h1 h2

unseal Rat.mul in
theorem best_cost_monotone_witness :
    (⟨1, 1, 1⟩ : HistEntry) ∈ (simulated_annealing List.length (fun _ tt => tt) (fun _ => false)
        2 1 (mkRat 1 2) false [("A", "s", "r")]).history ∧
    (⟨2, 1, 1⟩ : HistEntry) ∈ (simulated_annealing List.length (fun _ tt => tt) (fun _ => false)
        2 1 (mkRat 1 2) false [("A", "s", "r")]).history ∧
    (⟨1, 1, 1⟩ : HistEntry).iter < (⟨2, 1, 1⟩ : HistEntry).iter ∧
    (⟨2, 1, 1⟩ : HistEntry).best_cost ≤ (⟨1, 1, 1⟩ : HistEntry).best_cost :=
  ⟨by decide, by decide, by decide,
   best_cost_monotone List.length (fun _ tt => tt) (fun _ => false) 2 1 (mkRat 1 2) false
     [("A", "s", "r")] ⟨1, 1, 1⟩ ⟨2, 1, 1⟩ (by decide) (by decide) (by decide)⟩
